import Mathlib

/-!
Verification of the wcwidth repository (src/wcwidth/wcwidth.py) against its
natural-language specification.  The Python source is shallowly embedded:
code points are `Nat`, Python strings are `String` compared through explicit
lexicographic helpers mirroring CPython semantics, fallible paths (raised
exceptions) are `Option`, and the external table data asset (the modules
table_zero / table_wide / table_vs16 / unicode_versions, which are not part
of the source tree) is modelled from the specification as an abstract
`TableSet`.
-/

/-- Lexicographic order on lists of characters, mirroring CPython string
comparison: compare code points position by position, a strict prefix is
smaller. -/
def charsLt : List Char → List Char → Bool
  | [], [] => false
  | [], _ :: _ => true
  | _ :: _, [] => false
  | a :: xs, b :: ys => a < b || (a == b && charsLt xs ys)

/-- Python `s < t` on strings. -/
def pyStrLt (s t : String) : Bool :=
  charsLt s.data t.data

/-- Python `s <= t` on strings (total order, so `s <= t` iff not `t < s`). -/
def pyStrLe (s t : String) : Bool :=
  !(pyStrLt t s)

/-- Python `max(...)` over a list of strings: `none` on the empty list
(where CPython raises ValueError), otherwise the leftmost maximum under
lexicographic order. -/
def pyMax (l : List String) : Option String :=
  match l with
  | [] => none
  | x :: xs => some (xs.foldl (fun cur y => if pyStrLt cur y then y else cur) x)

/-- Python `<` on tuples of integers (used on `_wcversion_value` results):
lexicographic, a strict prefix is smaller. -/
def tupLt : List Nat → List Nat → Bool
  | [], [] => false
  | [], _ :: _ => true
  | _ :: _, [] => false
  | a :: xs, b :: ys => a < b || (a == b && tupLt xs ys)

/-- Python `a <= b` on integer tuples (total order, so iff not `b < a`). -/
def tupLe (a b : List Nat) : Bool :=
  !(tupLt b a)

/-- Python `s.split(".")` on the character list of a string: cut at every
dot; the empty string yields one empty group. -/
def splitDots : List Char → List (List Char)
  | [] => [[]]
  | c :: rest =>
    if c = '.' then [] :: splitDots rest
    else
      match splitDots rest with
      | [] => [[c]]
      | g :: gs => (c :: g) :: gs

/-- Python `int(component)` for a dotted-version component.  CPython also
accepts signs, surrounding whitespace and digit-group underscores; version
components are plain digit runs (spec section 3: dotted numeric form), so
only those are accepted here, anything else is a ValueError (`none`). -/
def compToNat (l : List Char) : Option Nat :=
  if l ≠ [] ∧ l.all (fun c => c.isDigit) then
    some (l.foldl (fun a c => 10 * a + (c.toNat - 48)) 0)
  else none

/-- Embedding of `_wcversion_value`: `tuple(map(int, ver_string.split(".")))`,
with `none` for the ValueError raised on a non-numeric component. -/
def _wcversion_value (ver_string : String) : Option (List Nat) :=
  (splitDots ver_string.data).mapM compToNat

/-- Value of a supported version string.  The spec (section 3) guarantees
every key of the table mapping is in dotted numeric form, so the parse
cannot fail there; the default is never reached under that invariant. -/
def verValD (v : String) : List Nat :=
  (_wcversion_value v).getD []

/-- Loop body of `_bisearch`, structurally recursive on fuel.  The wrapper
`bseek` supplies fuel `(ub + 1 - lb).toNat`, the exact number of remaining
candidate indices, so fuel 0 coincides with the `ubound < lbound` exit. -/
def bseekGo (ucs : Nat) (table : List (Nat × Nat)) : Nat → Int → Int → Nat
  | 0, _, _ => 0
  | fuel + 1, lb, ub =>
    if lb ≤ ub then
      if (table.getD ((lb + ub) / 2).toNat (0, 0)).2 < ucs then
        bseekGo ucs table fuel ((lb + ub) / 2 + 1) ub
      else if ucs < (table.getD ((lb + ub) / 2).toNat (0, 0)).1 then
        bseekGo ucs table fuel lb ((lb + ub) / 2 - 1)
      else 1
    else 0

/-- While-loop of `_bisearch`: binary search with inclusive integer bounds,
exactly as in the source (`mid = (lbound + ubound) // 2`, narrow on
`ucs > table[mid][1]` respectively `ucs < table[mid][0]`). -/
def bseek (ucs : Nat) (table : List (Nat × Nat)) (lb ub : Int) : Nat :=
  bseekGo ucs table (ub + 1 - lb).toNat lb ub

/-- Embedding of `_bisearch(ucs, table)`: fast rejection on the empty table
or a code point outside the overall hull, otherwise binary search over the
full index range. -/
def _bisearch (ucs : Nat) (table : List (Nat × Nat)) : Nat :=
  if table = [] ∨ ucs < (table.headD (0, 0)).1 ∨ (table.getLastD (0, 0)).2 < ucs then 0
  else bseek ucs table 0 ((table.length : Int) - 1)

/-- Reference membership predicate: the code point lies inside some stored
closed interval of the table. -/
def inTable (ucs : Nat) (table : List (Nat × Nat)) : Bool :=
  table.any (fun p => p.1 ≤ ucs && ucs ≤ p.2)

/-- Precondition on interval tables (spec section 3): each interval is
well-formed (`start ≤ end`) and the list is sorted ascending by start with
mutually disjoint intervals — equivalently, every interval ends strictly
before the next one starts. -/
def tableOk (t : List (Nat × Nat)) : Prop :=
  (∀ p ∈ t, p.1 ≤ p.2) ∧ t.Pairwise (fun p q => p.2 < q.1)

/-- Decidability of the table precondition, for concrete witnesses. -/
instance (t : List (Nat × Nat)) : Decidable (tableOk t) := by
  unfold tableOk
  infer_instance

/-- Modelled from the spec: the external table data asset (modules
table_zero, table_wide, table_vs16, unicode_versions — absent from src/).
Per spec sections 3 and 6 it is a mapping from Unicode version strings to a
zero-width table and a wide table with identical key sets, plus the VS16
narrow-to-wide exception set; `versions` lists the mapping keys in their
iteration order, which `list_versions()` also returns. -/
structure TableSet where
  versions : List String
  zero : String → List (Nat × Nat)
  wide : String → List (Nat × Nat)
  vs16 : List Nat

/-- Embedding of the inline version resolution of `wcwidth` (lines 156-163):
substitute `max(ZERO_WIDTH.keys())` for "auto", then, when the token is not
a key, `max(v for v in valid_versions if v <= unicode_version)` — Python
string comparison throughout; `none` is the ValueError CPython raises when
that generator is empty (or the key set itself is empty). -/
def resolveInWcwidth (T : TableSet) (ver : String) : Option String :=
  match (if ver = "auto" then pyMax T.versions else some ver) with
  | none => none
  | some v =>
    if v ∈ T.versions then some v
    else pyMax (T.versions.filter (fun w => pyStrLe w v))

/-- Embedding of the table-driven part of `wcwidth` (lines 165-192), after
the NUL and control checks and with the version already resolved to a table
key `uv`. -/
def wcwClassify (T : TableSet) (uv : String) (c : Nat) : Int :=
  if _bisearch c (T.zero uv) ≠ 0 then 0
  else if 0x1F000 ≤ c ∧ c ≤ 0x1FFFF then 2
  else if c = 0x200D then 0
  else if _bisearch c (T.wide uv) ≠ 0 then 2
  else if 0xFE00 ≤ c ∧ c ≤ 0xFE0F then 0
  else if c ∈ T.vs16 then 2
  else if (c = 0x2640 ∨ c = 0x2642) ∧ pyStrLe "9.0.0" uv then 2
  else 1

/-- Embedding of `wcwidth(wc, unicode_version)` for a single code point
(the `len(wc) != 1` guard is satisfied by construction): NUL, then the
C0/C1 control ranges, then version resolution and table classification.
The `none` result models the ValueError escaping from line 163. -/
def wcwidthC (T : TableSet) (c : Nat) (ver : String) : Option Int :=
  if c = 0 then some 0
  else if c < 32 ∨ (0x7F ≤ c ∧ c < 0xA0) then some (-1)
  else (resolveInWcwidth T ver).map (fun uv => wcwClassify T uv c)

/-- Continuation test of the emoji lookahead loop in `wcswidth` (line 233):
zero-width joiner, another emoji-block character, or a variation selector. -/
def isCont (c : Nat) : Bool :=
  c == 0x200D || (0x1F000 ≤ c && c ≤ 0x1FFFF) || (0xFE00 ≤ c && c ≤ 0xFE0F)

/-- Lookahead loop of `wcswidth`, structurally recursive on fuel; the
wrapper supplies fuel `n - j`, enough for the loop to reach its genuine
exit. -/
def scanJGo (pwcs : List Nat) (n : Nat) : Nat → Nat → Nat
  | j, 0 => j
  | j, fuel + 1 =>
    if j < n ∧ isCont (pwcs.getD j 0) then scanJGo pwcs n (j + 1) fuel else j

/-- Lookahead index `j` of `wcswidth` (lines 232-234): advance past the
maximal run of continuation characters, stopping at `n`. -/
def scanJ (pwcs : List Nat) (n : Nat) (j : Nat) : Nat :=
  scanJGo pwcs n j (n + 1 - j)

/-- Main loop of `wcswidth` (lines 223-242), structurally recursive on fuel
(the wrapper supplies `n - i + 1`, an upper bound on the remaining
iterations since `i` strictly increases).  A `none` models a raised
exception: IndexError when `i < n` runs past the end of the string, or the
ValueError propagating out of `wcwidth`. -/
def wcswidthGo (T : TableSet) (ver : String) (pwcs : List Nat) (n : Nat) :
    Nat → Nat → Int → Option Int
  | 0, _, width => some width
  | fuel + 1, i, width =>
    if i < n then
      match pwcs.get? i with
      | none => none
      | some c =>
        match wcwidthC T c ver with
        | none => none
        | some cw =>
          if 0x1F000 ≤ c ∧ c ≤ 0x1FFFF then
            wcswidthGo T ver pwcs n fuel (scanJ pwcs n (i + 1)) (width + 2)
          else if cw < 0 then some (-1)
          else wcswidthGo T ver pwcs n fuel (i + 1) (width + cw)
    else some width

/-- State of the `wcswidth` loop entered at index `i` with accumulator
`width`. -/
def wcswidthAux (T : TableSet) (ver : String) (pwcs : List Nat) (n i : Nat)
    (width : Int) : Option Int :=
  wcswidthGo T ver pwcs n (n - i) i width

/-- Embedding of `wcswidth(pwcs, n, unicode_version)`: a `none` limit is
Python `n=None`, replaced by the length of the string. -/
def wcswidth (T : TableSet) (pwcs : List Nat) (n : Option Nat) (ver : String) :
    Option Int :=
  wcswidthAux T ver pwcs (n.getD pwcs.length) 0 0

/-- Index reached after one iteration of the `wcswidth` loop that starts at
index `i` (ignoring the early -1 return, which ends the loop): the emoji
lookahead target for an emoji-block character, the successor otherwise. -/
def nextIdx (s : List Nat) (n i : Nat) : Nat :=
  if 0x1F000 ≤ s.getD i 0 ∧ s.getD i 0 ≤ 0x1FFFF then scanJ s n (i + 1) else i + 1

/-- Indices considered by the `wcswidth` loop: `k` is reachable from `i` by
iterating `nextIdx` while the position is below the limit. -/
inductive Reaches (s : List Nat) (n : Nat) : Nat → Nat → Prop where
  | refl (i : Nat) : Reaches s n i i
  | step {i k : Nat} : i < n → Reaches s n (nextIdx s n i) k → Reaches s n i k

/-- Per-unit widths of the bounded prefix, one entry per loop unit: 2 for
an emoji cluster, the single-character width otherwise.  Structurally
recursive on fuel, wrapped below. -/
def unitWidthsGo (T : TableSet) (ver : String) (pwcs : List Nat) (n : Nat) :
    Nat → Nat → List Int
  | 0, _ => []
  | fuel + 1, i =>
    if i < n then
      if 0x1F000 ≤ pwcs.getD i 0 ∧ pwcs.getD i 0 ≤ 0x1FFFF then
        2 :: unitWidthsGo T ver pwcs n fuel (scanJ pwcs n (i + 1))
      else
        (wcwidthC T (pwcs.getD i 0) ver).getD 0 :: unitWidthsGo T ver pwcs n fuel (i + 1)
    else []

/-- List of per-unit widths of the loop started at index `i`. -/
def unitWidths (T : TableSet) (ver : String) (pwcs : List Nat) (n i : Nat) :
    List Int :=
  unitWidthsGo T ver pwcs n (n - i) i

/-- Embedding of `_wcmatch_version(given_version)` (lines 263-319), with the
environment (`os.environ.get("UNICODE_VERSION", "latest")`) passed
explicitly: "auto" defers to the override, "latest" takes the last
supported version; a parseable token is matched against the supported
versions scanned from highest to lowest under Python tuple comparison, with
the first supported version as final fallback.  `none` models the
IndexError of indexing an empty supported list. -/
def wcmatchVersion (T : TableSet) (env : Option String) (given_version : String) :
    Option String :=
  let g := if given_version = "auto" then env.getD "latest" else given_version
  if g = "latest" then T.versions.getLast?
  else
    match _wcversion_value g with
    | none => T.versions.getLast?
    | some gv =>
      match T.versions.reverse.find? (fun v => tupLe (verValD v) gv) with
      | some v => some v
      | none => T.versions.head?

/-- Concrete table set used by counterexamples and witnesses: the supported
set of the spec's example scenario in section 8. -/
def genT : TableSet :=
  { versions := ["4.1.0", "9.0.0"]
    zero := fun v => if v = "9.0.0" then [(0x300, 0x36F)] else [(0x300, 0x34E)]
    wide := fun v => if v = "9.0.0" then [(0x1100, 0x115F)] else []
    vs16 := [0x23E9] }

/-- Concrete table set whose supported versions include a two-digit major
version. -/
def cexT : TableSet :=
  { versions := ["4.1.0", "10.0.0"]
    zero := fun _ => []
    wide := fun _ => []
    vs16 := [] }

/-- Concrete table set matching the version-fallback example of spec
section 8. -/
def vTab : TableSet :=
  { versions := ["4.1.0", "5.0.0"]
    zero := fun _ => []
    wide := fun _ => []
    vs16 := [] }

/-- Concrete table set whose supported versions straddle the token "8.0". -/
def t8 : TableSet :=
  { versions := ["4.1.0", "8.0.0"]
    zero := fun _ => []
    wide := fun _ => []
    vs16 := [] }

/-- Interval starts are bounded by interval ends in a well-formed table. -/
lemma tOk_start_le_end {t : List (Nat × Nat)} (h : tableOk t) {i : Nat}
    (hi : i < t.length) : (t.get ⟨i, hi⟩).1 ≤ (t.get ⟨i, hi⟩).2 :=
  h.1 _ (t.get_mem _ _)

/-- In a well-formed table, an earlier interval ends strictly before a later
one starts. -/
lemma tOk_lt {t : List (Nat × Nat)} (h : tableOk t) {i j : Nat} (hij : i < j)
    (hj : j < t.length) :
    (t.get ⟨i, by omega⟩).2 < (t.get ⟨j, hj⟩).1 :=
  List.pairwise_iff_get.mp h.2 ⟨i, by omega⟩ ⟨j, hj⟩ hij

/-- Interval ends are monotone in the index of a well-formed table. -/
lemma tOk_end_mono {t : List (Nat × Nat)} (h : tableOk t) {i j : Nat} (hij : i ≤ j)
    (hj : j < t.length) :
    (t.get ⟨i, by omega⟩).2 ≤ (t.get ⟨j, hj⟩).2 := by
  rcases Nat.lt_or_ge i j with hlt | hge
  · exact le_trans (le_of_lt (tOk_lt h hlt hj)) (tOk_start_le_end h hj)
  · have hij' : i = j := le_antisymm hij hge
    subst hij'
    exact le_refl _

/-- Interval starts are monotone in the index of a well-formed table. -/
lemma tOk_start_mono {t : List (Nat × Nat)} (h : tableOk t) {i j : Nat} (hij : i ≤ j)
    (hj : j < t.length) :
    (t.get ⟨i, by omega⟩).1 ≤ (t.get ⟨j, hj⟩).1 := by
  rcases Nat.lt_or_ge i j with hlt | hge
  · exact le_trans (tOk_start_le_end h (by omega)) (le_of_lt (tOk_lt h hlt hj))
  · have hij' : i = j := le_antisymm hij hge
    subst hij'
    exact le_refl _

/-- Correctness of the binary-search loop on a well-formed table: given
enough fuel and in-range bounds it is total with values in {0, 1} and
returns 1 exactly when the code point lies in an interval stored between
the bounds. -/
lemma bseekGo_spec {t : List (Nat × Nat)} (hok : tableOk t) (ucs : Nat) :
    ∀ (fuel : Nat) (lb ub : Int), (ub + 1 - lb).toNat ≤ fuel → 0 ≤ lb →
      ub < (t.length : Int) →
      (bseekGo ucs t fuel lb ub = 0 ∨ bseekGo ucs t fuel lb ub = 1)
      ∧ (bseekGo ucs t fuel lb ub = 1 ↔
          ∃ i : Nat, lb ≤ (i : Int) ∧ (i : Int) ≤ ub ∧ ∃ hi : i < t.length,
            (t.get ⟨i, hi⟩).1 ≤ ucs ∧ ucs ≤ (t.get ⟨i, hi⟩).2) := by
  intro fuel
  induction fuel with
  | zero =>
    intro lb ub hf h0 hub
    refine ⟨Or.inl rfl, ?_, ?_⟩
    · intro h
      exact absurd h (by simp [bseekGo])
    · rintro ⟨i, h1, h2, hi, hc⟩
      exfalso
      omega
  | succ fuel ih =>
    intro lb ub hf h0 hub
    simp only [bseekGo]
    by_cases hle : lb ≤ ub
    · have hm1 : lb ≤ (lb + ub) / 2 := by omega
      have hm2 : (lb + ub) / 2 ≤ ub := by omega
      have hmn : ((lb + ub) / 2).toNat < t.length := by omega
      have hmc : (((lb + ub) / 2).toNat : Int) = (lb + ub) / 2 := by omega
      have hget : t.getD ((lb + ub) / 2).toNat (0, 0) = t.get ⟨((lb + ub) / 2).toNat, hmn⟩ :=
        List.getD_eq_get t (0, 0) hmn
      rw [if_pos hle]
      by_cases hA : (t.getD ((lb + ub) / 2).toNat (0, 0)).2 < ucs
      · rw [if_pos hA]
        rw [hget] at hA
        obtain ⟨tot, hiff⟩ := ih ((lb + ub) / 2 + 1) ub (by omega) (by omega) hub
        refine ⟨tot, hiff.trans ⟨?_, ?_⟩⟩
        · rintro ⟨i, h1, h2, hi, hc⟩
          exact ⟨i, by omega, h2, hi, hc⟩
        · rintro ⟨i, h1, h2, hi, hc⟩
          refine ⟨i, ?_, h2, hi, hc⟩
          by_contra hcon
          have hile : i ≤ ((lb + ub) / 2).toNat := by omega
          have := tOk_end_mono hok hile hmn
          omega
      · rw [if_neg hA]
        rw [hget] at hA
        by_cases hB : ucs < (t.getD ((lb + ub) / 2).toNat (0, 0)).1
        · rw [if_pos hB]
          rw [hget] at hB
          obtain ⟨tot, hiff⟩ := ih lb ((lb + ub) / 2 - 1) (by omega) h0 (by omega)
          refine ⟨tot, hiff.trans ⟨?_, ?_⟩⟩
          · rintro ⟨i, h1, h2, hi, hc⟩
            exact ⟨i, h1, by omega, hi, hc⟩
          · rintro ⟨i, h1, h2, hi, hc⟩
            refine ⟨i, h1, ?_, hi, hc⟩
            by_contra hcon
            have hile : ((lb + ub) / 2).toNat ≤ i := by omega
            have := tOk_start_mono hok hile hi
            omega
        · rw [if_neg hB]
          rw [hget] at hB
          refine ⟨Or.inr rfl, ?_, fun _ => rfl⟩
          intro _
          exact ⟨((lb + ub) / 2).toNat, by omega, by omega, hmn, by omega, by omega⟩
    · rw [if_neg hle]
      refine ⟨Or.inl rfl, ?_, ?_⟩
      · intro h
        exact absurd h (by omega)
      · rintro ⟨i, h1, h2, hi, hc⟩
        exfalso
        omega

/-- The last element of a non-empty list, as returned by `getLastD`. -/
lemma getLastD_eq_get {α : Type} :
    ∀ (l : List α) (x d : α),
      (x :: l).getLastD d = (x :: l).get ⟨l.length, by simp⟩ := by
  intro l
  induction l with
  | nil =>
    intro x d
    rfl
  | cons b tl ih =>
    intro x d
    rw [List.getLastD_cons, ih b x]
    rfl

/-- Membership in an interval table, phrased over indices. -/
lemma inTable_iff {t : List (Nat × Nat)} {ucs : Nat} :
    inTable ucs t = true ↔ ∃ i : Nat, ∃ hi : i < t.length,
      (t.get ⟨i, hi⟩).1 ≤ ucs ∧ ucs ≤ (t.get ⟨i, hi⟩).2 := by
  unfold inTable
  rw [List.any_eq_true]
  constructor
  · rintro ⟨p, hp, hcb⟩
    rcases List.mem_iff_get.mp hp with ⟨⟨i, hi⟩, rfl⟩
    refine ⟨i, hi, ?_⟩
    simpa using hcb
  · rintro ⟨i, hi, h1, h2⟩
    refine ⟨t.get ⟨i, hi⟩, t.get_mem _ _, ?_⟩
    simp only [List.get_eq_getElem] at h1 h2
    simp [h1, h2]

/-- Characterization of `_bisearch` on well-formed tables: it returns 1 on
code points contained in some interval and 0 otherwise. -/
lemma bisearch_eq {t : List (Nat × Nat)} (hok : tableOk t) (ucs : Nat) :
    _bisearch ucs t = if inTable ucs t then 1 else 0 := by
  unfold _bisearch
  by_cases hg : t = [] ∨ ucs < (t.headD (0, 0)).1 ∨ (t.getLastD (0, 0)).2 < ucs
  · rw [if_pos hg]
    have hnot : inTable ucs t = false := by
      rw [← Bool.not_eq_true]
      intro hin
      obtain ⟨i, hi, h1, h2⟩ := inTable_iff.mp hin
      rcases hg with rfl | hlt | hgt
      · simp at hi
      · rcases t with _ | ⟨x, xs⟩
        · simp at hi
        · have h0 : ((x :: xs).get ⟨0, by simp⟩).1 ≤ ((x :: xs).get ⟨i, hi⟩).1 :=
            tOk_start_mono hok (Nat.zero_le i) hi
          have hx : ((x :: xs).get ⟨0, by simp⟩) = x := rfl
          have hhd : (x :: xs).headD (0, 0) = x := rfl
          rw [hhd] at hlt
          rw [hx] at h0
          omega
      · rcases t with _ | ⟨x, xs⟩
        · simp at hi
        · rw [getLastD_eq_get xs x (0, 0)] at hgt
          have hlast : ((x :: xs).get ⟨i, hi⟩).2 ≤ ((x :: xs).get ⟨xs.length, by simp⟩).2 :=
            tOk_end_mono hok (by simp at hi; omega) (by simp)
          omega
    rw [hnot]
    rfl
  · rw [if_neg hg]
    push_neg at hg
    obtain ⟨hne, hh, hl⟩ := hg
    unfold bseek
    obtain ⟨tot, hiff⟩ :=
      bseekGo_spec hok ucs (((t.length : Int) - 1 + 1 - 0).toNat) 0 ((t.length : Int) - 1)
        (by omega) (by omega) (by omega)
    by_cases hin : inTable ucs t
    · rw [if_pos hin]
      refine hiff.mpr ?_
      obtain ⟨i, hi, h1, h2⟩ := inTable_iff.mp hin
      exact ⟨i, by omega, by omega, hi, h1, h2⟩
    · rw [if_neg hin]
      rcases tot with h0 | h1
      · exact h0
      · exfalso
        obtain ⟨i, _, _, hi, hc1, hc2⟩ := hiff.mp h1
        exact hin (inTable_iff.mpr ⟨i, hi, hc1, hc2⟩)

/-- C5: on every table sorted ascending by start with mutually disjoint
closed well-formed intervals, `_bisearch` is total with value 1 exactly on
code points lying inside some stored interval [start, end], 0 otherwise; in
particular it returns 1 at both endpoints of every stored interval and 0 at
any code point (such as start-1 or end+1) outside all stored intervals. -/
theorem bisearch_spec (t : List (Nat × Nat)) (hok : tableOk t) :
    (∀ ucs : Nat, _bisearch ucs t = if inTable ucs t then 1 else 0)
    ∧ (∀ p ∈ t, _bisearch p.1 t = 1 ∧ _bisearch p.2 t = 1)
    ∧ (∀ ucs : Nat, inTable ucs t = false → _bisearch ucs t = 0) := by
  refine ⟨fun ucs => bisearch_eq hok ucs, ?_, ?_⟩
  · intro p hp
    have hse := hok.1 p hp
    have h1 : inTable p.1 t = true := by
      unfold inTable
      rw [List.any_eq_true]
      exact ⟨p, hp, by simp [hse]⟩
    have h2 : inTable p.2 t = true := by
      unfold inTable
      rw [List.any_eq_true]
      exact ⟨p, hp, by simp [hse]⟩
    constructor
    · rw [bisearch_eq hok, h1]
      rfl
    · rw [bisearch_eq hok, h2]
      rfl
  · intro ucs h
    rw [bisearch_eq hok, h]
    rfl

/-- Witness for C5 at a concrete two-interval table. -/
theorem bisearch_spec_witness :
    tableOk [(3, 5), (8, 8)]
    ∧ _bisearch 3 [(3, 5), (8, 8)] = 1
    ∧ _bisearch 8 [(3, 5), (8, 8)] = 1
    ∧ _bisearch 6 [(3, 5), (8, 8)] = 0 := by
  have h := bisearch_spec [(3, 5), (8, 8)] (by decide)
  refine ⟨by decide, ?_, ?_, ?_⟩
  · exact (h.2.1 (3, 5) (by decide)).1
  · exact (h.2.1 (8, 8) (by decide)).2
  · exact h.2.2 6 (by decide)

/-- Fuel irrelevance of the lookahead loop: any two fuel amounts no smaller
than the remaining distance to the limit give the same stopping index. -/
lemma scanJGo_irrel (pwcs : List Nat) (n : Nat) :
    ∀ (f g j : Nat), n - j ≤ f → n - j ≤ g →
      scanJGo pwcs n j f = scanJGo pwcs n j g := by
  intro f
  induction f with
  | zero =>
    intro g j hf hg
    have hj : n ≤ j := by omega
    cases g with
    | zero => rfl
    | succ g =>
      have : ¬(j < n ∧ isCont (pwcs.getD j 0) = true) := by
        rintro ⟨h1, _⟩
        omega
      simp only [scanJGo]
      rw [if_neg this]
  | succ f ih =>
    intro g j hf hg
    cases g with
    | zero =>
      have hj : n ≤ j := by omega
      have : ¬(j < n ∧ isCont (pwcs.getD j 0) = true) := by
        rintro ⟨h1, _⟩
        omega
      simp only [scanJGo]
      rw [if_neg this]
    | succ g =>
      simp only [scanJGo]
      by_cases hc : j < n ∧ isCont (pwcs.getD j 0) = true
      · rw [if_pos hc, if_pos hc]
        exact ih g (j + 1) (by omega) (by omega)
      · rw [if_neg hc, if_neg hc]

/-- Unfolding equation of `scanJ`: one iteration of the while-loop of lines
233-234. -/
lemma scanJ_eq (pwcs : List Nat) (n j : Nat) :
    scanJ pwcs n j =
      if j < n ∧ isCont (pwcs.getD j 0) = true then scanJ pwcs n (j + 1) else j := by
  by_cases hc : j < n ∧ isCont (pwcs.getD j 0) = true
  · rw [if_pos hc]
    unfold scanJ
    have h1 : n + 1 - j = (n + 1 - (j + 1)) + 1 := by omega
    rw [h1]
    simp only [scanJGo]
    rw [if_pos hc]
  · rw [if_neg hc]
    unfold scanJ
    cases hnj : n + 1 - j with
    | zero => rfl
    | succ m =>
      simp only [scanJGo]
      rw [if_neg hc]

/-- The lookahead index never moves backwards. -/
lemma scanJ_ge (pwcs : List Nat) (n : Nat) :
    ∀ improve j : Nat, n - j ≤ improve → j ≤ scanJ pwcs n j := by
  intro improve
  induction improve with
  | zero =>
    intro j h
    rw [scanJ_eq]
    have : ¬(j < n ∧ isCont (pwcs.getD j 0) = true) := by
      rintro ⟨h1, _⟩
      omega
    rw [if_neg this]
  | succ f ih =>
    intro j h
    rw [scanJ_eq]
    by_cases hc : j < n ∧ isCont (pwcs.getD j 0) = true
    · rw [if_pos hc]
      have := ih (j + 1) (by omega)
      omega
    · rw [if_neg hc]

/-- The lookahead index stops at or before the limit. -/
lemma scanJ_le (pwcs : List Nat) (n : Nat) :
    ∀ improve j : Nat, n - j ≤ improve → j ≤ n → scanJ pwcs n j ≤ n := by
  intro improve
  induction improve with
  | zero =>
    intro j h hjn
    rw [scanJ_eq]
    have : ¬(j < n ∧ isCont (pwcs.getD j 0) = true) := by
      rintro ⟨h1, _⟩
      omega
    rw [if_neg this]
    exact hjn
  | succ f ih =>
    intro j h hjn
    rw [scanJ_eq]
    by_cases hc : j < n ∧ isCont (pwcs.getD j 0) = true
    · rw [if_pos hc]
      exact ih (j + 1) (by omega) (by omega)
    · rw [if_neg hc]
      exact hjn

/-- The lookahead index never moves backwards (closed form). -/
lemma scanJ_ge' (pwcs : List Nat) (n j : Nat) : j ≤ scanJ pwcs n j :=
  scanJ_ge pwcs n n j (by omega)

/-- The lookahead index stops at or before the limit (closed form). -/
lemma scanJ_le' (pwcs : List Nat) (n j : Nat) (h : j ≤ n) : scanJ pwcs n j ≤ n :=
  scanJ_le pwcs n n j (by omega) h

/-- Fuel irrelevance of the main `wcswidth` loop. -/
lemma wcswidthGo_irrel (T : TableSet) (ver : String) (pwcs : List Nat) (n : Nat) :
    ∀ (f g i : Nat) (w : Int), n - i ≤ f → n - i ≤ g →
      wcswidthGo T ver pwcs n f i w = wcswidthGo T ver pwcs n g i w := by
  intro f
  induction f with
  | zero =>
    intro g i w hf hg
    have hi : ¬i < n := by omega
    cases g with
    | zero => rfl
    | succ g =>
      simp only [wcswidthGo]
      rw [if_neg hi]
  | succ f ih =>
    intro g i w hf hg
    cases g with
    | zero =>
      have hi : ¬i < n := by omega
      simp only [wcswidthGo]
      rw [if_neg hi]
    | succ g =>
      simp only [wcswidthGo]
      by_cases hi : i < n
      · rw [if_pos hi, if_pos hi]
        split
        · rfl
        · rename_i c hgc
          split
          · rfl
          · rename_i cw hw
            by_cases he : 0x1F000 ≤ c ∧ c ≤ 0x1FFFF
            · rw [if_pos he, if_pos he]
              have hs := scanJ_ge' pwcs n (i + 1)
              exact ih g (scanJ pwcs n (i + 1)) (w + 2) (by omega) (by omega)
            · rw [if_neg he, if_neg he]
              by_cases hneg : cw < 0
              · rw [if_pos hneg, if_pos hneg]
              · rw [if_neg hneg, if_neg hneg]
                exact ih g (i + 1) (w + cw) (by omega) (by omega)
      · rw [if_neg hi, if_neg hi]

/-- Unfolding equation of the `wcswidth` loop state function: one iteration
of the while-loop of lines 225-242. -/
lemma wcswidthAux_eq (T : TableSet) (ver : String) (pwcs : List Nat) (n i : Nat)
    (w : Int) :
    wcswidthAux T ver pwcs n i w =
      if i < n then
        match pwcs.get? i with
        | none => none
        | some c =>
          match wcwidthC T c ver with
          | none => none
          | some cw =>
            if 0x1F000 ≤ c ∧ c ≤ 0x1FFFF then
              wcswidthAux T ver pwcs n (scanJ pwcs n (i + 1)) (w + 2)
            else if cw < 0 then some (-1)
            else wcswidthAux T ver pwcs n (i + 1) (w + cw)
      else some w := by
  unfold wcswidthAux
  by_cases hi : i < n
  · rw [if_pos hi]
    have h1 : n - i = (n - i - 1) + 1 := by omega
    rw [h1]
    simp only [wcswidthGo]
    rw [if_pos hi]
    split
    · rfl
    · rename_i c hgc
      split
      · rfl
      · rename_i cw hw
        by_cases he : 0x1F000 ≤ c ∧ c ≤ 0x1FFFF
        · rw [if_pos he, if_pos he]
          have hs := scanJ_ge' pwcs n (i + 1)
          exact wcswidthGo_irrel T ver pwcs n (n - i - 1) (n - scanJ pwcs n (i + 1))
            (scanJ pwcs n (i + 1)) (w + 2) (by omega) (by omega)
        · rw [if_neg he, if_neg he]
          by_cases hneg : cw < 0
          · rw [if_pos hneg, if_pos hneg]
          · rw [if_neg hneg, if_neg hneg]
            exact wcswidthGo_irrel T ver pwcs n (n - i - 1) (n - (i + 1)) (i + 1) (w + cw)
              (by omega) (by omega)
  · rw [if_neg hi]
    have h0 : n - i = 0 := by omega
    rw [h0]
    rfl

/-- Under a successful version resolution, `wcwidth` never raises: it is
the NUL rule, the control rule, or the table classification. -/
lemma wcwidthC_some (T : TableSet) (ver uv : String)
    (hres : resolveInWcwidth T ver = some uv) (c : Nat) :
    wcwidthC T c ver =
      some (if c = 0 then 0
        else if c < 32 ∨ (0x7F ≤ c ∧ c < 0xA0) then -1
        else wcwClassify T uv c) := by
  unfold wcwidthC
  by_cases h0 : c = 0
  · rw [if_pos h0, if_pos h0]
  · rw [if_neg h0, if_neg h0]
    by_cases hc : c < 32 ∨ (0x7F ≤ c ∧ c < 0xA0)
    · rw [if_pos hc, if_pos hc]
    · rw [if_neg hc, if_neg hc]
      rw [hres]
      rfl

/-- The table classifier only produces the widths 0, 1 and 2. -/
lemma wcwClassify_mem (T : TableSet) (uv : String) (c : Nat) :
    wcwClassify T uv c = 0 ∨ wcwClassify T uv c = 1 ∨ wcwClassify T uv c = 2 := by
  unfold wcwClassify
  split
  · exact Or.inl rfl
  · split
    · exact Or.inr (Or.inr rfl)
    · split
      · exact Or.inl rfl
      · split
        · exact Or.inr (Or.inr rfl)
        · split
          · exact Or.inl rfl
          · split
            · exact Or.inr (Or.inr rfl)
            · split
              · exact Or.inr (Or.inr rfl)
              · exact Or.inr (Or.inl rfl)

/-- Any width returned by `wcwidth` lies in {-1, 0, 1, 2}. -/
lemma wcwidthC_range (T : TableSet) (ver : String) (c : Nat) (w : Int)
    (h : wcwidthC T c ver = some w) : w = -1 ∨ w = 0 ∨ w = 1 ∨ w = 2 := by
  unfold wcwidthC at h
  by_cases h0 : c = 0
  · rw [if_pos h0] at h
    exact Or.inr (Or.inl (Option.some_injective _ h).symm)
  · rw [if_neg h0] at h
    by_cases hc : c < 32 ∨ (0x7F ≤ c ∧ c < 0xA0)
    · rw [if_pos hc] at h
      exact Or.inl (Option.some_injective _ h).symm
    · rw [if_neg hc] at h
      cases hres : resolveInWcwidth T ver with
      | none =>
        rw [hres] at h
        exact absurd h (by simp)
      | some uv =>
        rw [hres] at h
        simp only [Option.map_some'] at h
        have hw : wcwClassify T uv c = w := Option.some_injective _ h
        rcases wcwClassify_mem T uv c with h' | h' | h' <;> rw [hw] at h'
        · exact Or.inr (Or.inl h')
        · exact Or.inr (Or.inr (Or.inl h'))
        · exact Or.inr (Or.inr (Or.inr h'))

/-- An emoji-block code point is classified 0 or 2, never -1: it is not
NUL, not a control, and hits at latest the emoji-block rule. -/
lemma wcwidthC_emoji (T : TableSet) (ver : String) (c : Nat)
    (he : 0x1F000 ≤ c ∧ c ≤ 0x1FFFF) (w : Int) (h : wcwidthC T c ver = some w) :
    w = 0 ∨ w = 2 := by
  unfold wcwidthC at h
  rw [if_neg (by omega), if_neg (by omega)] at h
  cases hres : resolveInWcwidth T ver with
  | none =>
    rw [hres] at h
    exact absurd h (by simp)
  | some uv =>
    rw [hres] at h
    simp only [Option.map_some'] at h
    have hw : wcwClassify T uv c = w := Option.some_injective _ h
    unfold wcwClassify at hw
    by_cases hz : _bisearch c (T.zero uv) ≠ 0
    · rw [if_pos hz] at hw
      exact Or.inl hw.symm
    · rw [if_neg hz, if_pos he] at hw
      exact Or.inr hw.symm

/-- Equal optional lookups give equal defaulted lookups. -/
lemma getD_congr_of_getq {s t : List Nat} {j : Nat} (h : s.get? j = t.get? j) :
    s.getD j 0 = t.getD j 0 := by
  rw [List.getD_eq_getD_get?, List.getD_eq_getD_get?, h]

/-- The lookahead loop reads only positions below the limit, so it is
determined by the first `n` characters. -/
lemma scanJ_congr (s t : List Nat) (n : Nat) (h : ∀ j, j < n → s.get? j = t.get? j) :
    ∀ (f j : Nat), n - j ≤ f → scanJ s n j = scanJ t n j := by
  intro f
  induction f with
  | zero =>
    intro j hj
    rw [scanJ_eq s n j, scanJ_eq t n j]
    have hns : ¬(j < n ∧ isCont (s.getD j 0) = true) := by
      rintro ⟨h1, _⟩
      omega
    have hnt : ¬(j < n ∧ isCont (t.getD j 0) = true) := by
      rintro ⟨h1, _⟩
      omega
    rw [if_neg hns, if_neg hnt]
  | succ f ih =>
    intro j hj
    rw [scanJ_eq s n j, scanJ_eq t n j]
    by_cases hjn : j < n
    · have hd : s.getD j 0 = t.getD j 0 := getD_congr_of_getq (h j hjn)
      rw [hd]
      by_cases hc : j < n ∧ isCont (t.getD j 0) = true
      · rw [if_pos hc, if_pos hc]
        exact ih (j + 1) (by omega)
      · rw [if_neg hc, if_neg hc]
    · have hns : ¬(j < n ∧ isCont (s.getD j 0) = true) := fun hx => hjn hx.1
      have hnt : ¬(j < n ∧ isCont (t.getD j 0) = true) := fun hx => hjn hx.1
      rw [if_neg hns, if_neg hnt]

/-- The main loop reads only positions below the limit, so it is determined
by the first `n` characters. -/
lemma wcswidthGo_congr (T : TableSet) (ver : String) (s t : List Nat) (n : Nat)
    (h : ∀ j, j < n → s.get? j = t.get? j) :
    ∀ (f i : Nat) (w : Int), wcswidthGo T ver s n f i w = wcswidthGo T ver t n f i w := by
  intro f
  induction f with
  | zero =>
    intro i w
    rfl
  | succ f ih =>
    intro i w
    simp only [wcswidthGo]
    by_cases hi : i < n
    · rw [if_pos hi, if_pos hi, ← h i hi]
      have hscan : scanJ s n (i + 1) = scanJ t n (i + 1) :=
        scanJ_congr s t n h n (i + 1) (by omega)
      split
      · rfl
      · rename_i c hgc
        split
        · rfl
        · rename_i cw hw
          by_cases he : 0x1F000 ≤ c ∧ c ≤ 0x1FFFF
          · rw [if_pos he, if_pos he, hscan]
            exact ih (scanJ t n (i + 1)) (w + 2)
          · rw [if_neg he, if_neg he]
            by_cases hneg : cw < 0
            · rw [if_pos hneg, if_pos hneg]
            · rw [if_neg hneg, if_neg hneg]
              exact ih (i + 1) (w + cw)
    · rw [if_neg hi, if_neg hi]

/-- C10: with a limit `n` no larger than either string, `wcswidth` is a
function of the first `n` characters only — the lookahead index never
crosses the limit — so strings agreeing on their first `n` characters give
equal results. -/
theorem wcswidth_limit_noninterference (T : TableSet) (ver : String) (n : Nat)
    (s t : List Nat) (hs : n ≤ s.length) (ht : n ≤ t.length)
    (hpre : s.take n = t.take n) :
    wcswidth T s (some n) ver = wcswidth T t (some n) ver := by
  have hq : ∀ j, j < n → s.get? j = t.get? j := by
    intro j hj
    have h1 : (s.take n).get? j = (t.take n).get? j := by rw [hpre]
    rwa [List.get?_take hj, List.get?_take hj] at h1
  unfold wcswidth wcswidthAux
  exact wcswidthGo_congr T ver s t n hq (n - 0) 0 0

/-- Witness for C10: two strings sharing their first character, limit 1. -/
theorem wcswidth_limit_noninterference_witness :
    [65, 66].take 1 = [65, 67].take 1
    ∧ wcswidth genT [65, 66] (some 1) "9.0.0" = wcswidth genT [65, 67] (some 1) "9.0.0" :=
  ⟨by decide, wcswidth_limit_noninterference genT "9.0.0" 1 [65, 66] [65, 67]
    (by decide) (by decide) (by decide)⟩

/-- A loop step strictly advances the position. -/
lemma nextIdx_gt (s : List Nat) (n i : Nat) : i < nextIdx s n i := by
  unfold nextIdx
  by_cases he : 0x1F000 ≤ s.getD i 0 ∧ s.getD i 0 ≤ 0x1FFFF
  · rw [if_pos he]
    have := scanJ_ge' s n (i + 1)
    omega
  · rw [if_neg he]
    omega

/-- Reachability only moves forward. -/
lemma reaches_le {s : List Nat} {n : Nat} :
    ∀ {i k : Nat}, Reaches s n i k → i ≤ k := by
  intro i k h
  induction h with
  | refl i' => exact Nat.le_refl i'
  | step hlt hr ih =>
    rename_i i0 k0
    have := nextIdx_gt s n i0
    omega

/-- In-range positions have a genuine character to read. -/
lemma getq_eq_getD {s : List Nat} {i n : Nat} (hi : i < n) (hn : n ≤ s.length) :
    s.get? i = some (s.getD i 0) := by
  have hl : i < s.length := by omega
  rw [List.getD_eq_get s 0 hl, List.get?_eq_get hl]

/-- Short-circuit core: if the loop, started anywhere, reaches a considered
position whose character classifies as -1, the whole accumulation returns
-1, whatever the accumulator. -/
lemma aux_reaches_neg (T : TableSet) (ver uv : String)
    (hres : resolveInWcwidth T ver = some uv) (s : List Nat) (n : Nat)
    (hn : n ≤ s.length) {j i : Nat} (hr : Reaches s n j i) :
    i < n → wcwidthC T (s.getD i 0) ver = some (-1) →
      ∀ w : Int, wcswidthAux T ver s n j w = some (-1) := by
  induction hr with
  | refl i' =>
    intro hi hneg w
    have hnotE : ¬(0x1F000 ≤ s.getD i' 0 ∧ s.getD i' 0 ≤ 0x1FFFF) := by
      intro he
      rcases wcwidthC_emoji T ver (s.getD i' 0) he (-1) hneg with h' | h' <;> simp at h'
    rw [wcswidthAux_eq, if_pos hi]
    split
    · rename_i hnone
      rw [getq_eq_getD hi hn] at hnone
      exact absurd hnone (by simp)
    · rename_i c hsome
      rw [getq_eq_getD hi hn] at hsome
      have hcv : s.getD i' 0 = c := Option.some_injective _ hsome
      subst hcv
      split
      · rename_i hwnone
        rw [hneg] at hwnone
        exact absurd hwnone (by simp)
      · rename_i cw hw
        rw [hneg] at hw
        have hcw : cw = -1 := (Option.some_injective _ hw).symm
        rw [if_neg hnotE, if_pos (by omega)]
  | step hlt hr' ih =>
    intro hi hneg w
    rename_i i0 k0
    rw [wcswidthAux_eq, if_pos hlt]
    split
    · rename_i hnone
      rw [getq_eq_getD hlt hn] at hnone
      exact absurd hnone (by simp)
    · rename_i c hsome
      rw [getq_eq_getD hlt hn] at hsome
      have hcv : s.getD i0 0 = c := Option.some_injective _ hsome
      subst hcv
      split
      · rename_i hwnone
        rw [wcwidthC_some T ver uv hres (s.getD i0 0)] at hwnone
        exact absurd hwnone (by simp)
      · rename_i cw hw
        by_cases he : 0x1F000 ≤ s.getD i0 0 ∧ s.getD i0 0 ≤ 0x1FFFF
        · rw [if_pos he]
          have hnx : nextIdx s n i0 = scanJ s n (i0 + 1) := by
            unfold nextIdx
            rw [if_pos he]
          have := ih hi hneg (w + 2)
          rwa [hnx] at this
        · rw [if_neg he]
          by_cases hcwn : cw < 0
          · rw [if_pos hcwn]
          · rw [if_neg hcwn]
            have hnx : nextIdx s n i0 = i0 + 1 := by
              unfold nextIdx
              rw [if_neg he]
            have := ih hi hneg (w + cw)
            rwa [hnx] at this

/-- A lookahead that stops strictly below the limit stops at the same place
in any extension of the string with any larger limit. -/
lemma scanJ_extend (s t : List Nat) (n m : Nat) (hnm : n ≤ m) (hns : n ≤ s.length) :
    ∀ (f j : Nat), n - j ≤ f → scanJ s n j < n →
      scanJ (s ++ t) m j = scanJ s n j := by
  intro f
  induction f with
  | zero =>
    intro j hf hlt
    rw [scanJ_eq s n j] at hlt
    have hcond : ¬(j < n ∧ isCont (s.getD j 0) = true) := by
      rintro ⟨h1, _⟩
      omega
    rw [if_neg hcond] at hlt
    exfalso
    omega
  | succ f ih =>
    intro j hf hlt
    rw [scanJ_eq s n j] at hlt ⊢
    by_cases hc : j < n ∧ isCont (s.getD j 0) = true
    · rw [if_pos hc] at hlt ⊢
      rw [scanJ_eq (s ++ t) m j]
      have hg : (s ++ t).getD j 0 = s.getD j 0 := by
        rw [List.getD_eq_getD_get?, List.getD_eq_getD_get?, List.get?_append (by omega)]
      have hcm : j < m ∧ isCont ((s ++ t).getD j 0) = true := ⟨by omega, by rw [hg]; exact hc.2⟩
      rw [if_pos hcm]
      exact ih (j + 1) (by omega) hlt
    · rw [if_neg hc] at hlt ⊢
      rw [scanJ_eq (s ++ t) m j]
      have hjn : j < n := hlt
      have hg : (s ++ t).getD j 0 = s.getD j 0 := by
        rw [List.getD_eq_getD_get?, List.getD_eq_getD_get?, List.get?_append (by omega)]
      have hcm : ¬(j < m ∧ isCont ((s ++ t).getD j 0) = true) := by
        rintro ⟨-, h2⟩
        rw [hg] at h2
        exact hc ⟨hjn, h2⟩
      rw [if_neg hcm]

/-- A loop step that lands strictly below the limit is preserved by
extending the string and the limit. -/
lemma nextIdx_extend (s t : List Nat) (n m i : Nat) (hnm : n ≤ m) (hns : n ≤ s.length)
    (hi : i < n) (hlt : nextIdx s n i < n) :
    nextIdx (s ++ t) m i = nextIdx s n i := by
  have hg : (s ++ t).getD i 0 = s.getD i 0 := by
    rw [List.getD_eq_getD_get?, List.getD_eq_getD_get?, List.get?_append (by omega)]
  unfold nextIdx at hlt ⊢
  rw [hg]
  by_cases he : 0x1F000 ≤ s.getD i 0 ∧ s.getD i 0 ≤ 0x1FFFF
  · rw [if_pos he] at hlt
    rw [if_pos he, if_pos he]
    exact scanJ_extend s t n m hnm hns n (i + 1) (by omega) hlt
  · rw [if_neg he, if_neg he]

/-- Reachability of a position strictly below the limit is preserved by
extending the string and the limit. -/
lemma reaches_extend (s t : List Nat) (n m : Nat) (hnm : n ≤ m) (hns : n ≤ s.length) :
    ∀ {j i : Nat}, Reaches s n j i → i < n → Reaches (s ++ t) m j i := by
  intro j i hr
  induction hr with
  | refl i' =>
    intro _
    exact Reaches.refl i'
  | step hlt hr' ih =>
    rename_i i0 k0
    intro hi
    refine Reaches.step (by omega) ?_
    have hnle : nextIdx s n i0 ≤ k0 := reaches_le hr'
    rw [nextIdx_extend s t n m i0 hnm hns hlt (by omega)]
    exact ih hi

/-- C7: if the loop started at index 0 considers a position `i` (it is not
absorbed into a preceding emoji cluster) whose character classifies as -1,
then `wcswidth` of the whole string returns exactly -1, whatever characters
follow position `i` — not a partial sum. -/
theorem wcswidth_short_circuit (T : TableSet) (ver uv : String)
    (hres : resolveInWcwidth T ver = some uv) (p : List Nat) (i : Nat)
    (hip : p.length = i + 1) (hreach : Reaches p (i + 1) 0 i)
    (hneg : wcwidthC T (p.getD i 0) ver = some (-1)) :
    ∀ t : List Nat, wcswidth T (p ++ t) none ver = some (-1) := by
  intro t
  have hlen : (p ++ t).length = p.length + t.length := List.length_append p t
  have hre : Reaches (p ++ t) ((p ++ t).length) 0 i :=
    reaches_extend p t (i + 1) ((p ++ t).length) (by omega) (by omega) hreach (by omega)
  have hg : (p ++ t).getD i 0 = p.getD i 0 := by
    rw [List.getD_eq_getD_get?, List.getD_eq_getD_get?, List.get?_append (by omega)]
  unfold wcswidth
  exact aux_reaches_neg T ver uv hres (p ++ t) ((p ++ t).length) (Nat.le_refl _) hre
    (by omega) (by rw [hg]; exact hneg) 0

/-- Witness for C7: a letter followed by the control character BEL, then
arbitrary trailing characters. -/
theorem wcswidth_short_circuit_witness :
    wcswidth genT ([97, 7] ++ [120, 121]) none "9.0.0" = some (-1) := by
  have h1 : nextIdx [97, 7] 2 0 = 1 := by decide
  refine wcswidth_short_circuit genT "9.0.0" "9.0.0" (by decide) [97, 7] 1 (by decide)
    ?_ (by decide) [120, 121]
  refine Reaches.step (by decide) ?_
  rw [h1]
  exact Reaches.refl 1

/-- Fuel irrelevance of the per-unit width list. -/
lemma unitWidthsGo_irrel (T : TableSet) (ver : String) (pwcs : List Nat) (n : Nat) :
    ∀ (f g i : Nat), n - i ≤ f → n - i ≤ g →
      unitWidthsGo T ver pwcs n f i = unitWidthsGo T ver pwcs n g i := by
  intro f
  induction f with
  | zero =>
    intro g i hf hg
    have hi : ¬i < n := by omega
    cases g with
    | zero => rfl
    | succ g =>
      simp only [unitWidthsGo]
      rw [if_neg hi]
  | succ f ih =>
    intro g i hf hg
    cases g with
    | zero =>
      have hi : ¬i < n := by omega
      simp only [unitWidthsGo]
      rw [if_neg hi]
    | succ g =>
      simp only [unitWidthsGo]
      by_cases hi : i < n
      · rw [if_pos hi, if_pos hi]
        by_cases he : 0x1F000 ≤ pwcs.getD i 0 ∧ pwcs.getD i 0 ≤ 0x1FFFF
        · rw [if_pos he, if_pos he]
          have hs := scanJ_ge' pwcs n (i + 1)
          rw [ih g (scanJ pwcs n (i + 1)) (by omega) (by omega)]
        · rw [if_neg he, if_neg he]
          rw [ih g (i + 1) (by omega) (by omega)]
      · rw [if_neg hi, if_neg hi]

/-- Unfolding equation of the per-unit width list. -/
lemma unitWidths_eq (T : TableSet) (ver : String) (pwcs : List Nat) (n i : Nat) :
    unitWidths T ver pwcs n i =
      if i < n then
        if 0x1F000 ≤ pwcs.getD i 0 ∧ pwcs.getD i 0 ≤ 0x1FFFF then
          2 :: unitWidths T ver pwcs n (scanJ pwcs n (i + 1))
        else (wcwidthC T (pwcs.getD i 0) ver).getD 0 :: unitWidths T ver pwcs n (i + 1)
      else [] := by
  unfold unitWidths
  by_cases hi : i < n
  · rw [if_pos hi]
    have h1 : n - i = (n - i - 1) + 1 := by omega
    rw [h1]
    simp only [unitWidthsGo]
    rw [if_pos hi]
    by_cases he : 0x1F000 ≤ pwcs.getD i 0 ∧ pwcs.getD i 0 ≤ 0x1FFFF
    · rw [if_pos he, if_pos he]
      have hs := scanJ_ge' pwcs n (i + 1)
      rw [unitWidthsGo_irrel T ver pwcs n (n - i - 1) (n - scanJ pwcs n (i + 1))
        (scanJ pwcs n (i + 1)) (by omega) (by omega)]
    · rw [if_neg he, if_neg he]
      rw [unitWidthsGo_irrel T ver pwcs n (n - i - 1) (n - (i + 1)) (i + 1)
        (by omega) (by omega)]
  · rw [if_neg hi]
    have h0 : n - i = 0 := by omega
    rw [h0]
    rfl

/-- A width of a character that does not classify -1 is non-negative. -/
lemma wcwidthC_getD_nonneg (T : TableSet) (ver uv : String)
    (hres : resolveInWcwidth T ver = some uv) (c : Nat)
    (hne : wcwidthC T c ver ≠ some (-1)) : 0 ≤ (wcwidthC T c ver).getD 0 := by
  have hw := wcwidthC_some T ver uv hres c
  rcases wcwidthC_range T ver c _ hw with h' | h' | h' | h'
  · exfalso
    apply hne
    rw [hw, h']
  all_goals rw [hw, Option.getD_some]
  all_goals omega

/-- On a -1-free string the loop equals the accumulator plus the sum of the
per-unit widths. -/
lemma aux_eq_sum (T : TableSet) (ver uv : String)
    (hres : resolveInWcwidth T ver = some uv) (pwcs : List Nat) (n : Nat)
    (hn : n ≤ pwcs.length) (hneg : ∀ c ∈ pwcs, wcwidthC T c ver ≠ some (-1)) :
    ∀ (f i : Nat) (w : Int), n - i ≤ f →
      wcswidthAux T ver pwcs n i w = some (w + (unitWidths T ver pwcs n i).sum) := by
  intro f
  induction f with
  | zero =>
    intro i w hf
    rw [wcswidthAux_eq, if_neg (by omega), unitWidths_eq, if_neg (by omega)]
    simp
  | succ f ih =>
    intro i w hf
    by_cases hi : i < n
    · rw [wcswidthAux_eq, if_pos hi, unitWidths_eq, if_pos hi]
      split
      · rename_i hnone
        rw [getq_eq_getD hi hn] at hnone
        exact absurd hnone (by simp)
      · rename_i c hsome
        rw [getq_eq_getD hi hn] at hsome
        have hcv : pwcs.getD i 0 = c := Option.some_injective _ hsome
        subst hcv
        split
        · rename_i hwnone
          rw [wcwidthC_some T ver uv hres (pwcs.getD i 0)] at hwnone
          exact absurd hwnone (by simp)
        · rename_i cw hw
          by_cases he : 0x1F000 ≤ pwcs.getD i 0 ∧ pwcs.getD i 0 ≤ 0x1FFFF
          · rw [if_pos he, if_pos he]
            have hs := scanJ_ge' pwcs n (i + 1)
            rw [ih (scanJ pwcs n (i + 1)) (w + 2) (by omega), List.sum_cons]
            congr 1
            ring
          · rw [if_neg he, if_neg he]
            have hmem : pwcs.getD i 0 ∈ pwcs := by
              have hl : i < pwcs.length := by omega
              rw [List.getD_eq_get pwcs 0 hl]
              exact pwcs.get_mem _ _
            have hne := hneg _ hmem
            have hge : (0 : Int) ≤ cw := by
              rcases wcwidthC_range T ver (pwcs.getD i 0) cw hw with h' | h' | h' | h'
              · rw [h'] at hw
                exact absurd hw hne
              all_goals omega
            rw [if_neg (by omega), ih (i + 1) (w + cw) (by omega), hw, Option.getD_some,
              List.sum_cons]
            congr 1
            ring
    · rw [wcswidthAux_eq, if_neg hi, unitWidths_eq, if_neg hi]
      simp

/-- The per-unit widths of a -1-free string sum to a non-negative value. -/
lemma unitSum_nonneg (T : TableSet) (ver uv : String)
    (hres : resolveInWcwidth T ver = some uv) (pwcs : List Nat) (n : Nat)
    (hn : n ≤ pwcs.length) (hneg : ∀ c ∈ pwcs, wcwidthC T c ver ≠ some (-1)) :
    ∀ (f i : Nat), n - i ≤ f → 0 ≤ (unitWidths T ver pwcs n i).sum := by
  intro f
  induction f with
  | zero =>
    intro i hf
    rw [unitWidths_eq, if_neg (by omega)]
    simp
  | succ f ih =>
    intro i hf
    by_cases hi : i < n
    · rw [unitWidths_eq, if_pos hi]
      by_cases he : 0x1F000 ≤ pwcs.getD i 0 ∧ pwcs.getD i 0 ≤ 0x1FFFF
      · rw [if_pos he, List.sum_cons]
        have hs := scanJ_ge' pwcs n (i + 1)
        have := ih (scanJ pwcs n (i + 1)) (by omega)
        omega
      · rw [if_neg he, List.sum_cons]
        have hmem : pwcs.getD i 0 ∈ pwcs := by
          have hl : i < pwcs.length := by omega
          rw [List.getD_eq_get pwcs 0 hl]
          exact pwcs.get_mem _ _
        have hh := wcwidthC_getD_nonneg T ver uv hres (pwcs.getD i 0) (hneg _ hmem)
        have := ih (i + 1) (by omega)
        omega
    · rw [unitWidths_eq, if_neg hi]
      simp

/-- Raising the limit by one from a position at or past the old limit. -/
lemma scanJ_succ_base (pwcs : List Nat) (n j : Nat) (hj : n ≤ j) :
    scanJ pwcs (n + 1) j = scanJ pwcs n j ∨
    (scanJ pwcs n j = n ∧
      (scanJ pwcs (n + 1) j = n ∨ scanJ pwcs (n + 1) j = n + 1)) := by
  have hn : scanJ pwcs n j = j := by
    rw [scanJ_eq]
    rw [if_neg (by rintro ⟨h1, _⟩; omega)]
  by_cases hjn : j = n
  · right
    constructor
    · rw [hn, hjn]
    · rw [scanJ_eq]
      by_cases hc : j < n + 1 ∧ isCont (pwcs.getD j 0) = true
      · rw [if_pos hc]
        have hstop : scanJ pwcs (n + 1) (j + 1) = j + 1 := by
          rw [scanJ_eq]
          rw [if_neg (by rintro ⟨h1, _⟩; omega)]
        omega
      · rw [if_neg hc]
        omega
  · left
    rw [hn, scanJ_eq]
    rw [if_neg (by rintro ⟨h1, _⟩; omega)]

/-- Raising the limit by one either leaves the lookahead unchanged, or the
old lookahead had been cut at the old limit. -/
lemma scanJ_succ_limit (pwcs : List Nat) (n : Nat) :
    ∀ (f j : Nat), n - j ≤ f →
      scanJ pwcs (n + 1) j = scanJ pwcs n j ∨
      (scanJ pwcs n j = n ∧
        (scanJ pwcs (n + 1) j = n ∨ scanJ pwcs (n + 1) j = n + 1)) := by
  intro f
  induction f with
  | zero =>
    intro j hf
    exact scanJ_succ_base pwcs n j (by omega)
  | succ f ih =>
    intro j hf
    by_cases hjn : j < n
    · rw [scanJ_eq pwcs (n + 1) j, scanJ_eq pwcs n j]
      by_cases hcont : isCont (pwcs.getD j 0) = true
      · rw [if_pos ⟨by omega, hcont⟩, if_pos ⟨hjn, hcont⟩]
        exact ih (j + 1) (by omega)
      · rw [if_neg (by rintro ⟨-, h2⟩; exact hcont h2),
          if_neg (by rintro ⟨-, h2⟩; exact hcont h2)]
        left
        rfl
    · exact scanJ_succ_base pwcs n j (by omega)

/-- One-step monotonicity of the per-unit sum in the limit, on -1-free
strings. -/
lemma unitSum_mono (T : TableSet) (ver uv : String)
    (hres : resolveInWcwidth T ver = some uv) (pwcs : List Nat) (n : Nat)
    (hn1 : n + 1 ≤ pwcs.length) (hneg : ∀ c ∈ pwcs, wcwidthC T c ver ≠ some (-1)) :
    ∀ (f i : Nat), n + 1 - i ≤ f →
      (unitWidths T ver pwcs n i).sum ≤ (unitWidths T ver pwcs (n + 1) i).sum := by
  intro f
  induction f with
  | zero =>
    intro i hf
    rw [unitWidths_eq T ver pwcs n i, if_neg (by omega),
      unitWidths_eq T ver pwcs (n + 1) i, if_neg (by omega)]
  | succ f ih =>
    intro i hf
    by_cases hi : i < n
    · rw [unitWidths_eq T ver pwcs n i, if_pos hi,
        unitWidths_eq T ver pwcs (n + 1) i, if_pos (show i < n + 1 by omega)]
      by_cases he : 0x1F000 ≤ pwcs.getD i 0 ∧ pwcs.getD i 0 ≤ 0x1FFFF
      · rw [if_pos he, if_pos he, List.sum_cons, List.sum_cons]
        rcases scanJ_succ_limit pwcs n n (i + 1) (by omega) with hca | ⟨hcb, -⟩
        · rw [hca]
          have hs := scanJ_ge' pwcs n (i + 1)
          have := ih (scanJ pwcs n (i + 1)) (by omega)
          omega
        · have hz : (unitWidths T ver pwcs n n).sum = 0 := by
            rw [unitWidths_eq, if_neg (by omega)]
            rfl
          have hnn := unitSum_nonneg T ver uv hres pwcs (n + 1) hn1 hneg (n + 1)
            (scanJ pwcs (n + 1) (i + 1)) (by omega)
          rw [hcb, hz]
          omega
      · rw [if_neg he, if_neg he, List.sum_cons, List.sum_cons]
        have := ih (i + 1) (by omega)
        omega
    · rw [unitWidths_eq T ver pwcs n i, if_neg (by omega)]
      have hnn := unitSum_nonneg T ver uv hres pwcs (n + 1) hn1 hneg (n + 1) i (by omega)
      simpa using hnn

/-- Monotonicity of the per-unit sum in the limit, on -1-free strings. -/
lemma unitSum_mono_le (T : TableSet) (ver uv : String)
    (hres : resolveInWcwidth T ver = some uv) (pwcs : List Nat)
    (hneg : ∀ c ∈ pwcs, wcwidthC T c ver ≠ some (-1)) :
    ∀ (d k k' : Nat), k' - k ≤ d → k ≤ k' → k' ≤ pwcs.length →
      (unitWidths T ver pwcs k 0).sum ≤ (unitWidths T ver pwcs k' 0).sum := by
  intro d
  induction d with
  | zero =>
    intro k k' h1 h2 h3
    have hk : k = k' := by omega
    subst hk
    exact le_refl _
  | succ d ih =>
    intro k k' h1 h2 h3
    by_cases heq : k = k'
    · subst heq
      exact le_refl _
    · have hstep : k' = (k' - 1) + 1 := by omega
      have h5 := unitSum_mono T ver uv hres pwcs (k' - 1) (by omega) hneg ((k' - 1) + 1) 0
        (by omega)
      calc (unitWidths T ver pwcs k 0).sum
          ≤ (unitWidths T ver pwcs (k' - 1) 0).sum := ih k (k' - 1) (by omega) (by omega)
            (by omega)
        _ ≤ (unitWidths T ver pwcs ((k' - 1) + 1) 0).sum := h5
        _ = (unitWidths T ver pwcs k' 0).sum := by rw [← hstep]

/-- C9: the empty string, or limit 0, measures 0; on a string free of
-1-classified characters, the result is defined, non-decreasing in the
limit up to the length, and at full length equals the sum of the per-unit
widths (2 per emoji cluster, the character width otherwise). -/
theorem wcswidth_prefix_monotone (T : TableSet) (ver uv : String)
    (hres : resolveInWcwidth T ver = some uv) (s : List Nat)
    (hneg : ∀ c ∈ s, wcwidthC T c ver ≠ some (-1)) :
    (∀ (t : List Nat) (v : String),
      wcswidth T [] none v = some 0 ∧ wcswidth T t (some 0) v = some 0)
    ∧ (∀ k k' : Nat, k ≤ k' → k' ≤ s.length →
        ∃ a b : Int, wcswidth T s (some k) ver = some a
          ∧ wcswidth T s (some k') ver = some b ∧ a ≤ b)
    ∧ wcswidth T s none ver = some (unitWidths T ver s s.length 0).sum := by
  refine ⟨fun t v => ⟨rfl, rfl⟩, ?_, ?_⟩
  · intro k k' hkk hk'
    refine ⟨(unitWidths T ver s k 0).sum, (unitWidths T ver s k' 0).sum, ?_, ?_, ?_⟩
    · have h := aux_eq_sum T ver uv hres s k (by omega) hneg k 0 0 (by omega)
      unfold wcswidth
      simpa using h
    · have h := aux_eq_sum T ver uv hres s k' hk' hneg k' 0 0 (by omega)
      unfold wcswidth
      simpa using h
    · exact unitSum_mono_le T ver uv hres s hneg k' k k' (by omega) hkk hk'
  · have h := aux_eq_sum T ver uv hres s s.length (Nat.le_refl _) hneg s.length 0 0 (by omega)
    unfold wcswidth
    simpa using h

/-- Witness for C9 on a concrete -1-free string with an emoji character. -/
theorem wcswidth_prefix_monotone_witness :
    wcswidth genT [65, 0x1F600, 66] none "9.0.0" =
      some (unitWidths genT "9.0.0" [65, 0x1F600, 66] 3 0).sum
    ∧ ∃ a b : Int, wcswidth genT [65, 0x1F600, 66] (some 1) "9.0.0" = some a
        ∧ wcswidth genT [65, 0x1F600, 66] (some 3) "9.0.0" = some b ∧ a ≤ b := by
  have h := wcswidth_prefix_monotone genT "9.0.0" "9.0.0" (by decide) [65, 0x1F600, 66]
    (by decide)
  exact ⟨h.2.2, h.2.1 1 3 (by decide) (by decide)⟩

/-- Every position strictly inside the lookahead run is a continuation. -/
lemma scanJ_all_cont (pwcs : List Nat) (n : Nat) :
    ∀ (f j0 : Nat), n - j0 ≤ f →
      ∀ j : Nat, j0 ≤ j → j < scanJ pwcs n j0 → isCont (pwcs.getD j 0) = true := by
  intro f
  induction f with
  | zero =>
    intro j0 hf j hj0 hj
    rw [scanJ_eq, if_neg (by rintro ⟨h1, _⟩; omega)] at hj
    exfalso
    omega
  | succ f ih =>
    intro j0 hf j hj0 hj
    rw [scanJ_eq] at hj
    by_cases hc : j0 < n ∧ isCont (pwcs.getD j0 0) = true
    · rw [if_pos hc] at hj
      by_cases hjj : j = j0
      · rw [hjj]
        exact hc.2
      · exact ih (j0 + 1) (by omega) j (by omega) hj
    · rw [if_neg hc] at hj
      exfalso
      omega

/-- The lookahead stops at the limit or at the first non-continuation. -/
lemma scanJ_stop (pwcs : List Nat) (n : Nat) :
    ∀ (f j : Nat), n - j ≤ f → j ≤ n →
      scanJ pwcs n j = n ∨ isCont (pwcs.getD (scanJ pwcs n j) 0) = false := by
  intro f
  induction f with
  | zero =>
    intro j hf hjn
    have hje : j = n := by omega
    left
    rw [scanJ_eq, if_neg (by rintro ⟨h1, _⟩; omega)]
    exact hje
  | succ f ih =>
    intro j hf hjn
    by_cases hc : j < n ∧ isCont (pwcs.getD j 0) = true
    · rw [scanJ_eq, if_pos hc]
      exact ih (j + 1) (by omega) (by omega)
    · rw [scanJ_eq, if_neg hc]
      by_cases hjn2 : j = n
      · left
        exact hjn2
      · right
        have hjlt : j < n := by omega
        cases hcont : isCont (pwcs.getD j 0)
        · rfl
        · exact absurd ⟨hjlt, hcont⟩ hc

/-- C6: a considered emoji-block character opens a cluster: the loop
consumes it together with the maximal following run of ZWJ, emoji-block
and variation-selector characters as one unit contributing exactly 2, and
in particular [emoji, ZWJ, emoji] measures 2, not 4. -/
theorem emoji_cluster_collapse (T : TableSet) (ver uv : String)
    (hres : resolveInWcwidth T ver = some uv) (s : List Nat) (n i : Nat)
    (hn : n ≤ s.length) (hi : i < n)
    (he : 0x1F000 ≤ s.getD i 0 ∧ s.getD i 0 ≤ 0x1FFFF) :
    (∀ w : Int, wcswidthAux T ver s n i w = wcswidthAux T ver s n (scanJ s n (i + 1)) (w + 2))
    ∧ (∀ j : Nat, i + 1 ≤ j → j < scanJ s n (i + 1) → isCont (s.getD j 0) = true)
    ∧ (scanJ s n (i + 1) = n ∨ isCont (s.getD (scanJ s n (i + 1)) 0) = false)
    ∧ (∀ e z : Nat, 0x1F000 ≤ e → e ≤ 0x1FFFF → 0x1F000 ≤ z → z ≤ 0x1FFFF →
        wcswidth T [e, 0x200D, z] none ver = some 2) := by
  refine ⟨?_, ?_, ?_, ?_⟩
  · intro w
    rw [wcswidthAux_eq, if_pos hi]
    split
    · rename_i hnone
      rw [getq_eq_getD hi hn] at hnone
      exact absurd hnone (by simp)
    · rename_i c hsome
      rw [getq_eq_getD hi hn] at hsome
      have hcv : s.getD i 0 = c := Option.some_injective _ hsome
      subst hcv
      split
      · rename_i hwnone
        rw [wcwidthC_some T ver uv hres (s.getD i 0)] at hwnone
        exact absurd hwnone (by simp)
      · rename_i cw hw
        rw [if_pos he]
  · exact fun j h1 h2 => scanJ_all_cont s n n (i + 1) (by omega) j h1 h2
  · exact scanJ_stop s n n (i + 1) (by omega) (by omega)
  · intro e z he1 he2 hz1 hz2
    show wcswidthAux T ver [e, 0x200D, z] 3 0 0 = some 2
    rw [wcswidthAux_eq, if_pos (by omega)]
    split
    · rename_i hnone
      exact absurd hnone (by simp)
    · rename_i c hsome
      have hce : e = c := by
        have hq : ([e, 0x200D, z] : List Nat).get? 0 = some e := rfl
        rw [hq] at hsome
        exact Option.some_injective _ hsome
      subst hce
      split
      · rename_i hwnone
        rw [wcwidthC_some T ver uv hres e] at hwnone
        exact absurd hwnone (by simp)
      · rename_i cw hw
        rw [if_pos ⟨he1, he2⟩]
        have hs1 : scanJ [e, 0x200D, z] 3 1 = 3 := by
          rw [scanJ_eq, if_pos ⟨by omega, rfl⟩]
          rw [scanJ_eq, if_pos ⟨by omega, by simp [isCont, hz1, hz2]⟩]
          rw [scanJ_eq, if_neg (by rintro ⟨h1, _⟩; omega)]
        rw [hs1, wcswidthAux_eq, if_neg (by omega)]
        rfl

/-- Witness for C6 on a concrete three-character emoji-ZWJ-emoji cluster. -/
theorem emoji_cluster_collapse_witness :
    wcswidth genT [0x1F600, 0x200D, 0x1F601] none "9.0.0" = some 2 := by
  have h := emoji_cluster_collapse genT "9.0.0" "9.0.0" (by decide)
    [0x1F600, 0x200D, 0x1F601] 3 0 (by decide) (by decide) (by decide)
  exact h.2.2.2 0x1F600 0x1F601 (by decide) (by decide) (by decide) (by decide)

/-- C8: the NUL code point measures 0 and every C0/C1 control code point in
[1, 31] or [0x7F, 0xA0) measures -1, for every table set and every version
token — these checks precede version resolution and all table lookups. -/
theorem control_rules :
    (∀ (T : TableSet) (ver : String), wcwidthC T 0 ver = some 0)
    ∧ (∀ (T : TableSet) (ver : String) (c : Nat),
        (1 ≤ c ∧ c ≤ 31) ∨ (0x7F ≤ c ∧ c < 0xA0) → wcwidthC T c ver = some (-1)) := by
  constructor
  · intro T ver
    rfl
  · intro T ver c hc
    unfold wcwidthC
    rw [if_neg (by omega), if_pos (by omega)]

/-- Witness for C8, using a version token that the code cannot resolve, so
the result demonstrably precedes version resolution. -/
theorem control_rules_witness :
    wcwidthC genT 0 "1" = some 0 ∧ wcwidthC genT 27 "1" = some (-1)
    ∧ wcwidthC genT 0x9F "1" = some (-1) :=
  ⟨control_rules.1 genT "1", control_rules.2 genT "1" 27 (by decide),
    control_rules.2 genT "1" 0x9F (by decide)⟩

/-- C1 (code bug): `wcwidth('a', '1')` with supported versions 4.1.0 and
5.0.0 reaches `max(v for v in valid_versions if v <= unicode_version)` on
an empty generator and raises ValueError (`none`), contradicting the spec
and the docstring promise that any version string may be given without
error; `wcswidth('ab', n=5)` raises IndexError.  The spec's example version
set is modelled in `vTab`, which resolves ordinary tokens fine. -/
theorem wcwidth_version_valueerror :
    wcwidthC vTab 97 "1" = none
    ∧ wcswidth vTab [97, 98] (some 5) "4.1.0" = none
    ∧ resolveInWcwidth vTab "4.1.0" = some "4.1.0" := by decide

/-- C2 counterexample: with supported versions 4.1.0 and 10.0.0 and empty
tables, the resolved version "10.0.0" is dotted-integer-greater than
"9.0.0" and the gender sign 0x2642 is intercepted by no earlier rule, yet
the code compares the version strings lexicographically ("10.0.0" <
"9.0.0" as Python strings) and returns the default width 1, not 2. -/
theorem gender_sign_dotted_cex :
    resolveInWcwidth cexT "10.0.0" = some "10.0.0"
    ∧ tupLe (verValD "9.0.0") (verValD "10.0.0") = true
    ∧ inTable 0x2642 (cexT.zero "10.0.0") = false
    ∧ inTable 0x2642 (cexT.wide "10.0.0") = false
    ∧ (0x2642 ∈ cexT.vs16 → False)
    ∧ wcwidthC cexT 0x2642 "10.0.0" = some 1 := by decide

/-- C2 as amended: a gender-sign code point not intercepted by the
zero-width table, the wide table or the VS16 set measures 2 exactly when
the resolved version is at least "9.0.0" under Python lexicographic string
comparison (and 1 otherwise); the spec's examples at "4.1.0" and "9.0.0"
are instances. -/
theorem gender_sign_lex_rule (T : TableSet) (ver uv : String)
    (hres : resolveInWcwidth T ver = some uv) (c : Nat)
    (hc : c = 0x2640 ∨ c = 0x2642)
    (hz : _bisearch c (T.zero uv) = 0) (hw : _bisearch c (T.wide uv) = 0)
    (hv : c ∉ T.vs16) :
    wcwidthC T c ver = some (if pyStrLe "9.0.0" uv = true then 2 else 1) := by
  have h := wcwidthC_some T ver uv hres c
  rw [h]
  rcases hc with rfl | rfl <;>
  · rw [if_neg (by omega), if_neg (by omega)]
    unfold wcwClassify
    rw [if_neg (by simp [hz]), if_neg (by omega), if_neg (by omega),
      if_neg (by simp [hw]), if_neg (by omega), if_neg hv]
    by_cases hle : pyStrLe "9.0.0" uv = true
    · rw [if_pos ⟨by omega, hle⟩, if_pos hle]
    · rw [if_neg (fun hcond => hle hcond.2), if_neg hle]

/-- Witness for the amended C2 at the spec's example version set. -/
theorem gender_sign_lex_rule_witness :
    wcwidthC genT 0x2642 "9.0.0" = some 2 ∧ wcwidthC genT 0x2642 "4.1.0" = some 1 := by
  have h2 := gender_sign_lex_rule genT "9.0.0" "9.0.0" (by decide) 0x2642 (Or.inr rfl)
    (by decide) (by decide) (by decide)
  have h1 := gender_sign_lex_rule genT "4.1.0" "4.1.0" (by decide) 0x2642 (Or.inr rfl)
    (by decide) (by decide) (by decide)
  constructor
  · rw [h2]
    decide
  · rw [h1]
    decide

/-- C3 (code bug): `_wcmatch_version("8.0")` compares raw Python tuples, so
the supported version "8.0.0" (tuple (8,0,0)) does not count as ≤ (8,0)
and the function returns "4.1.0" although its own doctest and the spec
require "8.0.0" (missing trailing components treated as 0).  The claim's
other examples do hold. -/
theorem wcmatch_version_8_0_bug :
    wcmatchVersion t8 none "8.0" = some "4.1.0"
    ∧ ("8.0.0" ∈ t8.versions)
    ∧ wcmatchVersion vTab none "4.9.9" = some "4.1.0"
    ∧ wcmatchVersion vTab none "1" = some "4.1.0"
    ∧ wcmatchVersion vTab none "latest" = some "5.0.0" := by decide

/-- C4 (code bug): the "auto" path of `wcwidth` never consults the
UNICODE_VERSION override — it substitutes the lexicographic maximum of the
table keys — so with the override set to "4.1.0" the claim demands the
"4.1.0" result (width 1 for 0x2642) while the code returns the "9.0.0"
result (width 2).  The separate, never-called `_wcmatch_version` would have
honoured the override. -/
theorem wcwidth_auto_ignores_override :
    wcwidthC genT 0x2642 "auto" = some 2
    ∧ wcwidthC genT 0x2642 "4.1.0" = some 1
    ∧ wcmatchVersion genT (some "4.1.0") "auto" = some "4.1.0" := by decide
